import Mathlib

/-!
Verification of the acronym/initials matcher (`AcronymSearcher`) of
obsidian-switcher-plus.

The matcher is embedded shallowly:

* JavaScript strings are modelled as `List Char` (abbreviated `Str`), one
  entry per code point.
* JavaScript `Number` score arithmetic is modelled over `ℚ`; every constant
  appearing in the code (`0.1`, `0.02`, `0.5`, ...) is an exact rational.
* `String.prototype.toLowerCase` is modelled on the ASCII range (the only
  range the matcher's own character classes `[a-z]`, `[A-Z]`, `[0-9]`
  distinguish); characters outside `A`..`Z` are mapped to themselves.
* A nullable string parameter (`text`, `basename`, `path`) is an
  `Option Str`, `none` standing for `null`/`undefined`.

Each definition mirrors one function of `src/utils/acronymSearcher.ts`;
definitions whose doc comment says "Modelled from the spec" follow the
specification text instead and are compared with the code-derived ones.
-/

/-- JavaScript strings, one list entry per code point. -/
abbrev Str := List Char

/-- Membership of the JavaScript `\s` character class (WhiteSpace and
LineTerminator productions), which is also the set removed by
`String.prototype.trim`. -/
def isJsWhitespace (c : Char) : Bool :=
  c.toNat = 0x9 || c.toNat = 0xa || c.toNat = 0xb || c.toNat = 0xc ||
  c.toNat = 0xd || c.toNat = 0x20 || c.toNat = 0xa0 || c.toNat = 0x1680 ||
  (0x2000 ≤ c.toNat && c.toNat ≤ 0x200a) || c.toNat = 0x2028 ||
  c.toNat = 0x2029 || c.toNat = 0x202f || c.toNat = 0x205f ||
  c.toNat = 0x3000 || c.toNat = 0xfeff

/-- ASCII lowercase letter, the `[a-z]` class of the camel-case pattern. -/
def isAsciiLower (c : Char) : Bool := 97 ≤ c.toNat && c.toNat ≤ 122

/-- ASCII uppercase letter, the `[A-Z]` class of the camel-case pattern. -/
def isAsciiUpper (c : Char) : Bool := 65 ≤ c.toNat && c.toNat ≤ 90

/-- ASCII digit, the `[0-9]` class of the camel-case pattern. -/
def isAsciiDigit (c : Char) : Bool := 48 ≤ c.toNat && c.toNat ≤ 57

/-- ASCII letter, the `[A-Za-z]` class of the camel-case pattern. -/
def isAsciiLetter (c : Char) : Bool := isAsciiLower c || isAsciiUpper c

/-- `toLowerCase`, modelled on the ASCII range: `A`..`Z` map to `a`..`z`,
every other character maps to itself. -/
def jsToLower (c : Char) : Char :=
  if isAsciiUpper c then Char.ofNat (c.toNat + 32) else c

/-- `String.prototype.trim`: drop `\s` characters from both ends. -/
def jsTrim (s : Str) : Str :=
  ((s.dropWhile isJsWhitespace).reverse.dropWhile isJsWhitespace).reverse

/-- Constructor normalisation `(query ?? '').trim().toLowerCase()`
(`acronymSearcher.ts`, line 13). -/
def normalizeQuery (raw : Option Str) : Str :=
  (jsTrim (raw.getD [])).map jsToLower

/-- Accessor `hasSearchTerm`, the truthiness test `!!this.query.length`
(`acronymSearcher.ts`, lines 192-194). -/
def hasSearchTerm (query : Str) : Bool :=
  query.length != 0

/-- `filename.split('.')`: split at every `'.'`, keeping empty pieces, as
JavaScript `String.prototype.split` with a one-character separator does. -/
def jsSplitDot : Str → List Str
  | [] => [[]]
  | c :: rest =>
    if c = '.' then [] :: jsSplitDot rest
    else
      match jsSplitDot rest with
      | [] => [[c]]
      | w :: ws => (c :: w) :: ws

/-- `parts.join('.')`: interleave a `'.'` between consecutive pieces. -/
def joinDot : List Str → Str
  | [] => []
  | [w] => w
  | w :: ws => w ++ '.' :: joinDot ws

/-- Splitting a string into maximal runs of non-delimiter characters.
This is `split(/[\s\-_.]+/).filter(Boolean)` (`acronymSearcher.ts`,
lines 34-35): splitting on maximal delimiter runs and discarding empty
fragments leaves exactly the maximal delimiter-free runs.  The worker
keeps the current run reversed in `cur`. -/
def splitRunsGo (p : Char → Bool) : Str → Str → List Str
  | cur, [] => if cur = [] then [] else [cur.reverse]
  | cur, c :: rest =>
    if p c then
      (if cur = [] then [] else [cur.reverse]) ++ splitRunsGo p [] rest
    else splitRunsGo p (c :: cur) rest

/-- Maximal runs of characters not satisfying `p`; see `splitRunsGo`. -/
def splitRuns (p : Char → Bool) (s : Str) : List Str :=
  splitRunsGo p [] s

/-- Delimiter class `[\s\-_.]` of the first split (`acronymSearcher.ts`,
line 34). -/
def isDelim (c : Char) : Bool :=
  isJsWhitespace c || c = '-' || c = '_' || c = '.'

/-- Zero-width boundary of the camel-case pattern
`(?<=[a-z])(?=[A-Z])|(?<=[A-Za-z])(?=[0-9])|(?<=[0-9])(?=[A-Za-z])`
(`acronymSearcher.ts`, lines 40-41), tested between adjacent characters. -/
def camelBoundary (a b : Char) : Bool :=
  (isAsciiLower a && isAsciiUpper b) ||
  (isAsciiLetter a && isAsciiDigit b) ||
  (isAsciiDigit a && isAsciiLetter b)

/-- `segment.split(camelPattern)`: cut a fragment at every `camelBoundary`
between adjacent characters; no character is consumed or duplicated. -/
def splitCamel : Str → List Str
  | [] => []
  | [c] => [[c]]
  | a :: b :: rest =>
    if camelBoundary a b then [a] :: splitCamel (b :: rest)
    else
      match splitCamel (b :: rest) with
      | [] => [[a]]
      | w :: ws => (a :: w) :: ws

/-- `extractWords` (`acronymSearcher.ts`, lines 22-52): split off the
extension at the last dot when more than one dot-part exists, split the
remaining stem on delimiter runs and camel/digit boundaries, append a
non-empty extension, and keep only non-empty words. -/
def extractWords (filename : Str) : List Str :=
  if filename = [] then []
  else
    let parts := jsSplitDot filename
    let extension := if 1 < parts.length then parts.getLastD [] else []
    let stemParts := if 1 < parts.length then parts.dropLast else parts
    let nameWithoutExt := joinDot stemParts
    let segments := splitRuns isDelim nameWithoutExt
    let words := segments.flatMap
      (fun seg => (splitCamel seg).filter (fun w => decide (w ≠ [])))
    let words2 := if extension ≠ [] then words ++ [extension] else words
    words2.filter (fun w => decide (0 < w.length))

/-- Modelled from the spec: the Word Segmenter of section 4.1, written as
the specification states it.  Step 1: empty text gives the empty sequence.
Step 2: split off a trailing extension at the last dot when more than one
dot-delimited part exists; the remainder is rejoined with dots as the stem,
otherwise the whole text is the stem.  Step 3: split the stem on runs of
whitespace, hyphen, underscore, or dot, discarding empty fragments.
Step 4: split each fragment at zero-width lowercase-to-uppercase,
letter-to-digit, and digit-to-letter boundaries.  Step 5: append the
extension, if present, as one final unsplit word.  Step 6: discard any
zero-length word. -/
def specSegment (text : Str) : List Str :=
  if text = [] then []
  else
    let parts := jsSplitDot text
    let hasExt := 1 < parts.length
    let stem := if hasExt then joinDot parts.dropLast else text
    let ext := if hasExt then [parts.getLastD []] else []
    let fragments := splitRuns isDelim stem
    let words := fragments.flatMap splitCamel
    (words ++ ext).filter (fun w => decide (w ≠ []))

/-- `createSearchableString` (`acronymSearcher.ts`, lines 57-59): the
lower-cased first character of every word, concatenated in order.  A word
contributes its first character; words are non-empty whenever they come
from `extractWords`. -/
def createSearchableString (words : List Str) : Str :=
  words.flatMap (fun w => (w.take 1).map jsToLower)

/-- `searchableString.indexOf(this.query)` (`acronymSearcher.ts`,
line 127): position of the leftmost occurrence of `q` as a contiguous
substring, `none` for JavaScript's `-1`. -/
def firstMatchPos (q : Str) : Str → Option Nat
  | [] => if q.isPrefixOf [] then some 0 else none
  | c :: t =>
    if q.isPrefixOf (c :: t) then some 0
    else (firstMatchPos q t).map (· + 1)

/-- `filename.toLowerCase().endsWith('.md')` (`acronymSearcher.ts`,
line 104). -/
def jsEndsWithMd (s : Str) : Bool :=
  ['.', 'm', 'd'].isSuffixOf (s.map jsToLower)

/-- `calculateScore` (`acronymSearcher.ts`, lines 65-113), mirrored
mutation by mutation: base 1; +3 for a match starting at word 0; +2 for a
query longer than one character; +2 for basename candidates; the density
bonus; +2 for consuming the whole index; the length penalty beyond 15
characters; +0.5 for `.md`; the position penalty; floored at 0.1. -/
def calculateScore (query searchableString filename : Str) (matchIndex : Nat)
    (isBasename : Bool) : ℚ :=
  let score : ℚ := 1
  let score := if matchIndex = 0 then score + 3 else score
  let score := if 1 < query.length then score + 2 else score
  let score := if isBasename then score + 2 else score
  let density : ℚ := (query.length : ℚ) / ((max searchableString.length 1 : ℕ) : ℚ)
  let score := score + density * 2
  let score := if query.length = searchableString.length then score + 2 else score
  let lengthPenalty : ℚ := ((max 0 ((filename.length : ℤ) - 15) : ℤ) : ℚ) * (1 / 50)
  let score := score - lengthPenalty
  let score := if jsEndsWithMd filename then score + 1 / 2 else score
  let positionPenalty : ℚ := (matchIndex : ℚ) * (1 / 10)
  let score := score - positionPenalty
  max (1 / 10) score

/-- Modelled from the spec: the Score Calculator of section 4.4, written as
one additive expression in the spec's fixed order: base 1.0, +3.0 for
matchIndex 0, +2.0 for query length over 1, +2.0 for basename/primary,
density times 2.0, +2.0 for full consumption, minus 0.02 per character of
text beyond 15, +0.5 for a text lower-casing to end in `.md`, minus 0.1 per
word of match position, floored at 0.1. -/
def specScore (queryLength indexLength textLength matchIndex : Nat)
    (isBasenameOrPrimary endsMd : Bool) : ℚ :=
  max (1 / 10)
    (1 + (if matchIndex = 0 then 3 else 0)
      + (if 1 < queryLength then 2 else 0)
      + (if isBasenameOrPrimary then 2 else 0)
      + ((queryLength : ℚ) / ((max indexLength 1 : ℕ) : ℚ)) * 2
      + (if queryLength = indexLength then 2 else 0)
      - ((max 0 ((textLength : ℤ) - 15) : ℤ) : ℚ) * (1 / 50)
      + (if endsMd then 1 / 2 else 0)
      - (matchIndex : ℚ) * (1 / 10))

/-- The span-building loop of `searchText` (`acronymSearcher.ts`,
lines 137-156): walk the words with index `i`, running character offset
`charIndex` and count `queryIndex` of spans already emitted; while
`queryIndex < qlen`, a word with `mi ≤ i < mi + qlen` emits the
one-character span `(charIndex, charIndex + 1)`; every word advances
`charIndex` by its length plus one for the delimiter unless it is last. -/
def buildMatchesGo (qlen mi : Nat) :
    List Str → Nat → Nat → Nat → List (Nat × Nat)
  | [], _, _, _ => []
  | w :: ws, i, charIndex, queryIndex =>
    if queryIndex < qlen then
      (if mi ≤ i ∧ i < mi + qlen then [(charIndex, charIndex + 1)] else []) ++
        buildMatchesGo qlen mi ws (i + 1)
          (charIndex + w.length + (if ws = [] then 0 else 1))
          (if mi ≤ i ∧ i < mi + qlen then queryIndex + 1 else queryIndex)
    else []

/-- Entry point of the span-building loop, starting at word 0 with
character offset 0 and no spans emitted. -/
def buildMatches (qlen mi : Nat) (words : List Str) : List (Nat × Nat) :=
  buildMatchesGo qlen mi words 0 0 0

/-- Obsidian's `SearchResult` shape as the matcher fills it: a score and
the highlight spans.  The source calls the span list `matches`; that word
is reserved here, so the field is spelled `spans`. -/
structure SearchResult where
  score : ℚ
  spans : List (Nat × Nat)
deriving DecidableEq, Repr

/-- `AcronymSearchResult` (`acronymSearcher.ts`, lines 4-7).  The field
`match` is spelled `match_`. -/
structure AcronymSearchResult where
  match_ : Option SearchResult
  score : ℚ
deriving DecidableEq, Repr

/-- `PathSegments` as the fallback search consumes it; each field may be
`null` at runtime, hence `Option`. -/
structure PathSegments where
  basename : Option Str
  path : Option Str

/-- `searchText` (`acronymSearcher.ts`, lines 118-164): guard on a falsy
query or text, locate the query in the initials string, then produce the
score and spans.  The `text` argument is `Option Str` so that `null` and
`undefined` candidates are representable; both fail the `!text` guard. -/
def searchText (query : Str) (text : Option Str) (isBasename : Bool) :
    AcronymSearchResult :=
  match text with
  | none => ⟨none, 0⟩
  | some t =>
    if query = [] ∨ t = [] then ⟨none, 0⟩
    else
      match firstMatchPos query (createSearchableString (extractWords t)) with
      | none => ⟨none, 0⟩
      | some matchIndex =>
        ⟨some ⟨calculateScore query (createSearchableString (extractWords t))
                  t matchIndex isBasename,
               buildMatches query.length matchIndex (extractWords t)⟩,
         calculateScore query (createSearchableString (extractWords t))
           t matchIndex isBasename⟩

/-- `searchWithFallback` (`acronymSearcher.ts`, lines 169-187): primary
text as basename/primary first; on failure and with path segments
supplied, the basename, then the full path as non-basename; the last
attempted result is returned. -/
def searchWithFallback (query : Str) (primaryText : Option Str)
    (pathSegments : Option PathSegments) : AcronymSearchResult :=
  let result := searchText query primaryText true
  match result.match_, pathSegments with
  | none, some ps =>
    let result2 := searchText query ps.basename true
    match result2.match_ with
    | none => searchText query ps.path false
    | some _ => result2
  | _, _ => result

/-- Character offset of word `i`: the lengths of the preceding words plus
one delimiter character per preceding word. -/
def wordOff (ws : List Str) (i : Nat) : Nat :=
  ((ws.take i).map List.length).sum + i

/-- The position- and basename-independent part of the score: base,
query-length bonus, density bonus, full-consumption bonus, length penalty
and `.md` bonus. -/
def scoreCore (query searchableString filename : Str) : ℚ :=
  1 + (if 1 < query.length then 2 else 0)
    + ((query.length : ℚ) / ((max searchableString.length 1 : ℕ) : ℚ)) * 2
    + (if query.length = searchableString.length then 2 else 0)
    - ((max 0 ((filename.length : ℤ) - 15) : ℤ) : ℚ) * (1 / 50)
    + (if jsEndsWithMd filename then 1 / 2 else 0)

/-- Concrete text `"get_the_score.txt"` from the repository's tests. -/
def tGts : Str := ['g','e','t','_','t','h','e','_','s','c','o','r','e','.','t','x','t']

/-- Concrete text `"my-first-class.py"` from the repository's tests. -/
def tMfcText : Str := ['m','y','-','f','i','r','s','t','-','c','l','a','s','s','.','p','y']

/-- Concrete text `"archive.tar.gz"`, the spec's worked extension example. -/
def tArchiveTarGz : Str := ['a','r','c','h','i','v','e','.','t','a','r','.','g','z']

/-- Concrete text `"ax-by"`, a two-word candidate. -/
def tAxBy : Str := ['a','x','-','b','y']

/-- A 300-character filename, long enough for the length penalty to push
both compared scores onto the 0.1 floor. -/
def longName : Str := List.replicate 300 'x'

/-- Concrete path segments used by the fallback examples. -/
def psXY : PathSegments := ⟨some tAxBy, some ['z','z']⟩

/-! ### Basic bridging lemmas -/

/-- Boolean `isPrefixOf` agrees with the prefix relation. -/
lemma isPrefixOf_eq_true_iff {l₁ l₂ : Str} : l₁.isPrefixOf l₂ = true ↔ l₁ <+: l₂ := by
  exact List.isPrefixOf_iff_prefix

/-- The empty list is a prefix of every list. -/
lemma nil_prefix_of (l : Str) : [] <+: l := by
  exact List.nil_prefix

/-- A contiguous occurrence is the same thing as being a prefix of some
tail of the haystack. -/
lemma exists_drop_iff_isInfix (q h : Str) :
    (∃ i, q <+: h.drop i) ↔ q <:+: h := by
  constructor
  · rintro ⟨i, hi⟩
    exact hi.isInfix.trans (List.drop_suffix i h).isInfix
  · rintro ⟨s, t₂, rfl⟩
    refine ⟨s.length, ?_⟩
    rw [show s ++ q ++ t₂ = s ++ (q ++ t₂) by simp, List.drop_left]
    exact List.prefix_append q t₂

/-! ### Characterisation of `firstMatchPos` (the `indexOf` embedding) -/

/-- `firstMatchPos` returns `some i` exactly when the query is a prefix of
the tail starting at `i` and of no earlier tail: leftmost-first search. -/
lemma firstMatchPos_some_iff (q : Str) :
    ∀ (h : Str) (i : Nat),
      firstMatchPos q h = some i ↔
        (q <+: h.drop i ∧ ∀ j, j < i → ¬ q <+: h.drop j) := by
  intro h
  induction h with
  | nil =>
    intro i
    by_cases hq : q = []
    · subst hq
      simp only [firstMatchPos, List.isPrefixOf, if_pos]
      constructor
      · rintro h0
        cases h0
        exact ⟨nil_prefix_of _, fun j hj => absurd hj (Nat.not_lt_zero j)⟩
      · rintro ⟨-, hnone⟩
        cases i with
        | zero => rfl
        | succ n => exact absurd (nil_prefix_of _) (hnone 0 (Nat.succ_pos n))
    · have hpf : q.isPrefixOf ([] : Str) = false := by
        cases q with
        | nil => exact absurd rfl hq
        | cons a as => rfl
      simp only [firstMatchPos, hpf, Bool.false_eq_true, if_false]
      constructor
      · intro hcon; exact absurd hcon (by simp)
      · rintro ⟨hpre, -⟩
        rw [List.drop_nil] at hpre
        exact absurd (List.prefix_nil.mp hpre) hq
  | cons c t ih =>
    intro i
    by_cases hp : q.isPrefixOf (c :: t) = true
    · have hp' : q <+: c :: t := isPrefixOf_eq_true_iff.mp hp
      simp only [firstMatchPos, hp, if_true]
      constructor
      · intro h0
        have : i = 0 := by
          cases h0; rfl
        subst this
        exact ⟨hp', fun j hj => absurd hj (Nat.not_lt_zero j)⟩
      · rintro ⟨hpre, hnone⟩
        cases i with
        | zero => rfl
        | succ n => exact absurd hp' (hnone 0 (Nat.succ_pos n))
    · have hp' : ¬ q <+: c :: t := fun hcon => hp (isPrefixOf_eq_true_iff.mpr hcon)
      simp only [firstMatchPos, hp, Bool.false_eq_true, if_false]
      cases i with
      | zero =>
        simp only [Option.map_eq_some']
        constructor
        · rintro ⟨a, -, hcon⟩; exact absurd hcon (by simp)
        · rintro ⟨hpre, -⟩
          exact absurd (by simpa using hpre) hp'
      | succ n =>
        rw [Option.map_eq_some']
        constructor
        · rintro ⟨a, ha, haeq⟩
          have han : a = n := by omega
          rw [han] at ha
          obtain ⟨hpre, hnone⟩ := (ih n).mp ha
          refine ⟨by simpa [List.drop_succ_cons] using hpre, ?_⟩
          intro j hj
          cases j with
          | zero => simpa using hp'
          | succ m =>
            rw [List.drop_succ_cons]
            exact hnone m (by omega)
        · rintro ⟨hpre, hnone⟩
          refine ⟨n, (ih n).mpr ⟨by simpa [List.drop_succ_cons] using hpre, ?_⟩, rfl⟩
          intro m hm
          have := hnone (m + 1) (by omega)
          simpa [List.drop_succ_cons] using this

/-- `firstMatchPos` returns `none` exactly when the query is a prefix of no
tail of the haystack. -/
lemma firstMatchPos_none_iff (q : Str) :
    ∀ (h : Str), firstMatchPos q h = none ↔ ∀ i, ¬ q <+: h.drop i := by
  intro h
  induction h with
  | nil =>
    by_cases hq : q = []
    · subst hq
      simp only [firstMatchPos, List.isPrefixOf, if_pos]
      constructor
      · intro hcon; exact absurd hcon (by simp)
      · intro hall; exact absurd (nil_prefix_of _) (hall 0)
    · have hpf : q.isPrefixOf ([] : Str) = false := by
        cases q with
        | nil => exact absurd rfl hq
        | cons a as => rfl
      simp only [firstMatchPos, hpf, Bool.false_eq_true, if_false, true_iff]
      intro i hcon
      rw [List.drop_nil] at hcon
      exact hq (List.prefix_nil.mp hcon)
  | cons c t ih =>
    by_cases hp : q.isPrefixOf (c :: t) = true
    · have hp' : q <+: c :: t := isPrefixOf_eq_true_iff.mp hp
      simp only [firstMatchPos, hp, if_true]
      constructor
      · intro hcon; exact absurd hcon (by simp)
      · intro hall; exact absurd (by simpa using hp') (hall 0)
    · have hp' : ¬ q <+: c :: t := fun hcon => hp (isPrefixOf_eq_true_iff.mpr hcon)
      simp only [firstMatchPos, hp, Bool.false_eq_true, if_false, Option.map_eq_none']
      rw [ih]
      constructor
      · intro hall i
        cases i with
        | zero => simpa using hp'
        | succ n => rw [List.drop_succ_cons]; exact hall n
      · intro hall i
        have := hall (i + 1)
        simpa [List.drop_succ_cons] using this

/-- The searcher finds the query exactly when it occurs contiguously. -/
lemma firstMatchPos_isSome_iff (q h : Str) :
    (firstMatchPos q h).isSome = true ↔ q <:+: h := by
  rw [← exists_drop_iff_isInfix]
  constructor
  · intro hs
    obtain ⟨i, hi⟩ := Option.isSome_iff_exists.mp hs
    exact ⟨i, ((firstMatchPos_some_iff q h i).mp hi).1⟩
  · intro ⟨i, hi⟩
    rcases hfm : firstMatchPos q h with _ | j
    · exact absurd hi ((firstMatchPos_none_iff q h).mp hfm i)
    · rfl

/-- A found match leaves room for the whole query inside the haystack. -/
lemma firstMatchPos_add_length_le (q h : Str) (i : Nat) (hq : q ≠ [])
    (hfm : firstMatchPos q h = some i) : i + q.length ≤ h.length := by
  obtain ⟨hpre, -⟩ := (firstMatchPos_some_iff q h i).mp hfm
  have hlen : q.length ≤ (h.drop i).length := hpre.length_le
  rw [List.length_drop] at hlen
  by_cases hih : i ≤ h.length
  · omega
  · exfalso
    have : h.drop i = [] := List.drop_eq_nil_of_le (by omega)
    rw [this] at hpre
    exact hq (List.prefix_nil.mp hpre)

/-! ### Trim and query normalisation -/

/-- Trimming an all-whitespace string leaves nothing. -/
lemma jsTrim_eq_nil (s : Str) (h : ∀ c ∈ s, isJsWhitespace c = true) :
    jsTrim s = [] := by
  have h1 : s.dropWhile isJsWhitespace = [] := List.dropWhile_eq_nil_iff.mpr h
  simp [jsTrim, h1]

/-- An all-whitespace raw query normalises to the empty query. -/
lemma normalizeQuery_eq_nil (raw : Str) (h : ∀ c ∈ raw, isJsWhitespace c = true) :
    normalizeQuery (some raw) = [] := by
  simp [normalizeQuery, jsTrim_eq_nil raw h]

/-! ### Words produced by segmentation are non-empty -/

/-- Every run collected by the splitting worker is non-empty. -/
lemma splitRunsGo_mem_ne_nil (p : Char → Bool) :
    ∀ (s cur w : Str), w ∈ splitRunsGo p cur s → w ≠ [] := by
  intro s
  induction s with
  | nil =>
    intro cur w hw
    by_cases hc : cur = []
    · simp [splitRunsGo, hc] at hw
    · simp only [splitRunsGo, if_neg hc, List.mem_singleton] at hw
      subst hw
      simpa [List.reverse_eq_nil_iff] using hc
  | cons c rest ih =>
    intro cur w hw
    by_cases hp : p c = true
    · simp only [splitRunsGo, hp, if_true, List.mem_append] at hw
      rcases hw with hw | hw
      · by_cases hc : cur = []
        · simp [hc] at hw
        · simp only [if_neg hc, List.mem_singleton] at hw
          subst hw
          simpa [List.reverse_eq_nil_iff] using hc
      · exact ih [] w hw
    · simp only [splitRunsGo, hp, Bool.false_eq_true, if_false] at hw
      exact ih (c :: cur) w hw

/-- Every fragment produced by the delimiter split is non-empty. -/
lemma splitRuns_mem_ne_nil (p : Char → Bool) (s : Str) :
    ∀ w ∈ splitRuns p s, w ≠ [] :=
  fun w hw => splitRunsGo_mem_ne_nil p s [] w hw

/-- Every piece produced by the camel-case split is non-empty. -/
lemma splitCamel_mem_ne_nil : ∀ (s w : Str), w ∈ splitCamel s → w ≠ [] := by
  have H : ∀ (n : Nat) (s : Str), s.length ≤ n → ∀ w ∈ splitCamel s, w ≠ [] := by
    intro n
    induction n with
    | zero =>
      intro s hs w hw
      have : s = [] := List.length_eq_zero.mp (Nat.le_zero.mp hs)
      subst this
      simp [splitCamel] at hw
    | succ n ih =>
      intro s hs w hw
      match s with
      | [] => simp [splitCamel] at hw
      | [c] =>
        simp only [splitCamel, List.mem_singleton] at hw
        subst hw
        simp
      | a :: b :: rest =>
        have hlen : (b :: rest).length ≤ n := by
          simp only [List.length_cons] at hs ⊢
          omega
        by_cases hcb : camelBoundary a b = true
        · simp only [splitCamel, hcb, if_true, List.mem_cons] at hw
          rcases hw with hw | hw
          · subst hw; simp
          · exact ih (b :: rest) hlen w hw
        · simp only [splitCamel, hcb, Bool.false_eq_true, if_false] at hw
          rcases hsc : splitCamel (b :: rest) with _ | ⟨w', ws⟩
          · rw [hsc] at hw
            simp only [List.mem_singleton] at hw
            subst hw; simp
          · rw [hsc] at hw
            simp only [List.mem_cons] at hw
            rcases hw with hw | hw
            · subst hw; simp
            · refine ih (b :: rest) hlen w ?_
              rw [hsc]
              exact List.mem_cons_of_mem w' hw
  intro s w hw
  exact H s.length s le_rfl w hw

/-- Every word returned by `extractWords` is non-empty: the final filter
keeps only words of positive length. -/
lemma extractWords_mem_ne_nil (t : Str) : ∀ w ∈ extractWords t, w ≠ [] := by
  intro w hw
  by_cases ht : t = []
  · simp [extractWords, ht] at hw
  · simp only [extractWords, if_neg ht] at hw
    have := (List.mem_filter.mp hw).2
    have hpos : 0 < w.length := of_decide_eq_true this
    exact List.length_pos.mp hpos

/-! ### Rejoining dot-split pieces -/

/-- Prepending a character to the first piece prepends it to the join. -/
lemma joinDot_cons_cons (c : Char) (w : Str) (ws : List Str) :
    joinDot ((c :: w) :: ws) = c :: joinDot (w :: ws) := by
  cases ws <;> simp [joinDot]

/-- `split('.')` never returns the empty list of pieces. -/
lemma jsSplitDot_ne_nil (s : Str) : jsSplitDot s ≠ [] := by
  induction s with
  | nil => simp [jsSplitDot]
  | cons c rest ih =>
    by_cases hc : c = '.'
    · simp [jsSplitDot, hc]
    · simp only [jsSplitDot, if_neg hc]
      rcases h : jsSplitDot rest with _ | ⟨w, ws⟩ <;> simp

/-- Joining the dot-split pieces with dots recovers the original string. -/
lemma joinDot_jsSplitDot (s : Str) : joinDot (jsSplitDot s) = s := by
  induction s with
  | nil => rfl
  | cons c rest ih =>
    simp only [jsSplitDot]
    by_cases hc : c = '.'
    · rw [if_pos hc]
      rcases hS : jsSplitDot rest with _ | ⟨w, ws⟩
      · exact absurd hS (jsSplitDot_ne_nil rest)
      · rw [hS] at ih
        subst hc
        simpa [joinDot] using ih
    · rw [if_neg hc]
      rcases hS : jsSplitDot rest with _ | ⟨w, ws⟩
      · exact absurd hS (jsSplitDot_ne_nil rest)
      · rw [hS] at ih
        rw [joinDot_cons_cons, ih]

/-! ### The code's segmentation equals the spec's segmentation -/

/-- Testing positive length and testing non-emptiness are the same filter. -/
lemma length_pos_filter_eq (ws : List Str) :
    ws.filter (fun w => decide (0 < w.length)) =
      ws.filter (fun w => decide (w ≠ [])) := by
  apply List.filter_congr
  intro w hw
  cases w <;> simp

/-- The code appends the extension only when it is non-empty while the spec
appends it unconditionally and then discards empty words; both produce the
same filtered word list. -/
lemma append_ext_filter (words : List Str) (ext : Str) :
    (if ext ≠ [] then words ++ [ext] else words).filter
        (fun w => decide (w ≠ [])) =
      (words ++ [ext]).filter (fun w => decide (w ≠ [])) := by
  by_cases hext : ext = []
  · subst hext
    simp [List.filter_append]
  · rw [if_pos hext]

/-- Filtering out empty pieces of a camel split is a no-op. -/
lemma splitCamel_filter_eq (seg : Str) :
    (splitCamel seg).filter (fun w => decide (w ≠ [])) = splitCamel seg :=
  List.filter_eq_self.mpr
    (fun w hw => decide_eq_true (splitCamel_mem_ne_nil seg w hw))

/-- `extractWords` implements exactly the spec's six-step Word Segmenter. -/
lemma extractWords_eq_specSegment (t : Str) : extractWords t = specSegment t := by
  by_cases ht : t = []
  · simp [extractWords, specSegment, ht]
  · simp only [extractWords, specSegment, if_neg ht]
    rw [length_pos_filter_eq]
    have hwords : ∀ s : Str,
        (splitRuns isDelim s).flatMap
            (fun seg => (splitCamel seg).filter (fun w => decide (w ≠ []))) =
          (splitRuns isDelim s).flatMap splitCamel := by
      intro s
      congr 1
      funext seg
      exact splitCamel_filter_eq seg
    by_cases hlen : 1 < (jsSplitDot t).length
    · simp only [if_pos hlen]
      rw [hwords, append_ext_filter]
    · simp only [if_neg hlen]
      rw [hwords, joinDot_jsSplitDot]
      simp [List.filter_append]

/-! ### The initials index -/

/-- On non-empty words the initials index is the ordered map taking each
word to the lower-cased first character. -/
lemma createSearchableString_eq_map (ws : List Str) (h : ∀ w ∈ ws, w ≠ []) :
    createSearchableString ws = ws.map (fun w => jsToLower w.headI) := by
  induction ws with
  | nil => rfl
  | cons w ws ih =>
    have hw := h w (List.mem_cons_self w ws)
    have htail : ∀ x ∈ ws, x ≠ [] := fun x hx => h x (List.mem_cons_of_mem w hx)
    rcases w with _ | ⟨c, r⟩
    · exact absurd rfl hw
    · rw [createSearchableString, List.flatMap_cons]
      rw [createSearchableString] at ih
      rw [ih htail]
      simp [List.headI_cons]

/-- The initials index has one character per word. -/
lemma createSearchableString_length (ws : List Str) (h : ∀ w ∈ ws, w ≠ []) :
    (createSearchableString ws).length = ws.length := by
  rw [createSearchableString_eq_map ws h, List.length_map]

/-! ### Closed form of the score -/

/-- The sequential mutations of `calculateScore` sum to a single additive
expression under the final floor. -/
lemma calculateScore_closed (q ss f : Str) (mi : Nat) (b : Bool) :
    calculateScore q ss f mi b =
      max (1 / 10) (scoreCore q ss f + (if mi = 0 then 3 else 0)
        + (if b then 2 else 0) - (mi : ℚ) * (1 / 10)) := by
  simp only [calculateScore, scoreCore]
  split_ifs <;> ring_nf

/-- The code's score is exactly the spec's additive model. -/
lemma calculateScore_eq_specScore (q ss f : Str) (mi : Nat) (b : Bool) :
    calculateScore q ss f mi b =
      specScore q.length ss.length f.length mi b (jsEndsWithMd f) := by
  simp only [calculateScore, specScore]
  split_ifs <;> ring_nf

/-! ### Closed form of the span-building loop -/

/-- Offset of the first word is zero. -/
lemma wordOff_zero (ws : List Str) : wordOff ws 0 = 0 := by
  simp [wordOff]

/-- Offset growth when stepping over the head word: its length plus one
delimiter character. -/
lemma wordOff_cons_succ (w : Str) (ws : List Str) (t : Nat) :
    wordOff (w :: ws) (t + 1) = w.length + 1 + wordOff ws t := by
  simp only [wordOff, List.take_succ_cons, List.map_cons, List.sum_cons]
  omega

/-- Invariant of the span loop: started at word index `i` with character
offset `ci` and with the number of already emitted spans consistent with
`i`, the loop emits exactly one span per remaining word index inside
`[mi, mi + qlen)`, placed at the running word offset. -/
lemma buildMatchesGo_eq (qlen mi : Nat) :
    ∀ (ws : List Str) (i ci : Nat),
      buildMatchesGo qlen mi ws i ci (min qlen (i - mi)) =
        ((List.range ws.length).filter
            (fun t => decide (mi ≤ i + t ∧ i + t < mi + qlen))).map
          (fun t => (ci + wordOff ws t, ci + wordOff ws t + 1)) := by
  intro ws
  induction ws with
  | nil =>
    intro i ci
    simp [buildMatchesGo]
  | cons w ws ih =>
    intro i ci
    by_cases hqi : min qlen (i - mi) < qlen
    · have hi : i < mi + qlen := by omega
      rw [buildMatchesGo, if_pos hqi]
      have hrange : List.range (w :: ws).length =
          0 :: (List.range ws.length).map Nat.succ := by
        simp [List.range_succ_eq_map]
      rw [hrange, List.filter_cons]
      have hshift :
          ((List.range ws.length).map Nat.succ).filter
              (fun t => decide (mi ≤ i + t ∧ i + t < mi + qlen)) =
            ((List.range ws.length).filter
                (fun t => decide (mi ≤ (i + 1) + t ∧ (i + 1) + t < mi + qlen))).map
              Nat.succ := by
        rw [List.filter_map]
        congr 1
        apply List.filter_congr
        intro t ht
        have harith : i + (t + 1) = (i + 1) + t := by omega
        simp only [Function.comp_apply, Nat.succ_eq_add_one, harith]
      by_cases hmi : mi ≤ i
      · have hcond : mi ≤ i ∧ i < mi + qlen := ⟨hmi, hi⟩
        rw [if_pos hcond]
        have hq1 : (if mi ≤ i ∧ i < mi + qlen then min qlen (i - mi) + 1
            else min qlen (i - mi)) = min qlen ((i + 1) - mi) := by
          rw [if_pos hcond]; omega
        rw [hq1, ih (i + 1) (ci + w.length + if ws = [] then 0 else 1)]
        have hcondd : decide (mi ≤ i + 0 ∧ i + 0 < mi + qlen) = true := by
          simp only [Nat.add_zero]
          exact decide_eq_true hcond
        rw [hcondd, if_pos rfl, hshift, List.map_cons, List.map_map,
          List.singleton_append]
        congr 1
        apply List.map_congr_left
        intro t ht
        have htlt : t < ws.length := List.mem_range.mp (List.mem_of_mem_filter ht)
        have hwsne : ws ≠ [] := by
          intro hc
          rw [hc] at htlt
          simp at htlt
        simp only [Function.comp_apply, Nat.succ_eq_add_one, if_neg hwsne,
          wordOff_cons_succ, Prod.mk.injEq]
        constructor <;> omega
      · have hcond : ¬ (mi ≤ i ∧ i < mi + qlen) := fun hc => hmi hc.1
        rw [if_neg hcond]
        have hq1 : (if mi ≤ i ∧ i < mi + qlen then min qlen (i - mi) + 1
            else min qlen (i - mi)) = min qlen ((i + 1) - mi) := by
          rw [if_neg hcond]; omega
        rw [hq1, ih (i + 1) (ci + w.length + if ws = [] then 0 else 1)]
        have hcondd : decide (mi ≤ i + 0 ∧ i + 0 < mi + qlen) = false := by
          simp only [Nat.add_zero]
          exact decide_eq_false hcond
        rw [hcondd, if_neg (show ¬ (false = true) by decide), hshift,
          List.map_map, List.nil_append]
        apply List.map_congr_left
        intro t ht
        have htlt : t < ws.length := List.mem_range.mp (List.mem_of_mem_filter ht)
        have hwsne : ws ≠ [] := by
          intro hc
          rw [hc] at htlt
          simp at htlt
        simp only [Function.comp_apply, Nat.succ_eq_add_one, if_neg hwsne,
          wordOff_cons_succ, Prod.mk.injEq]
        constructor <;> omega
    · rw [buildMatchesGo, if_neg hqi]
      symm
      rw [List.map_eq_nil_iff, List.filter_eq_nil_iff]
      intro t ht
      simp only [decide_eq_true_eq, not_and]
      intro hle
      omega

/-- The full loop emits one span per word index in `[mi, mi + qlen)`. -/
lemma buildMatches_eq (qlen mi : Nat) (ws : List Str) :
    buildMatches qlen mi ws =
      ((List.range ws.length).filter
          (fun t => decide (mi ≤ t ∧ t < mi + qlen))).map
        (fun t => (wordOff ws t, wordOff ws t + 1)) := by
  have h := buildMatchesGo_eq qlen mi ws 0 0
  rw [Nat.zero_sub, Nat.min_zero] at h
  rw [buildMatches, h]
  simp

/-- Filtering `range n` to the window `[mi, mi + L)` leaves the interval
clipped at `n`. -/
lemma filter_range_interval (mi L : Nat) :
    ∀ n, (List.range n).filter (fun t => decide (mi ≤ t ∧ t < mi + L)) =
      List.range' mi (min L (n - mi)) := by
  intro n
  induction n with
  | zero => simp
  | succ n ih =>
    rw [List.range_succ, List.filter_append, ih]
    by_cases h1 : mi ≤ n ∧ n < mi + L
    · have hmin : min L ((n + 1) - mi) = min L (n - mi) + 1 := by omega
      rw [hmin, List.range'_concat]
      have hmi : mi + 1 * min L (n - mi) = n := by omega
      rw [hmi]
      simp [h1]
    · have hmin : min L ((n + 1) - mi) = min L (n - mi) := by omega
      rw [hmin]
      have hfilter : List.filter (fun t => decide (mi ≤ t ∧ t < mi + L)) [n] = [] := by
        simp only [List.filter_cons, List.filter_nil, decide_eq_false h1]
        rfl
      rw [hfilter, List.append_nil]

/-- When the window fits inside `range n`, the filtered range is the full
shifted interval. -/
lemma filter_range_of_le (n mi L : Nat) (h : mi + L ≤ n) :
    (List.range n).filter (fun t => decide (mi ≤ t ∧ t < mi + L)) =
      (List.range L).map (fun k => mi + k) := by
  rw [filter_range_interval]
  have hmin : min L (n - mi) = L := by omega
  rw [hmin, List.range'_eq_map_range]

/-- Closed form of the span list of a successful match: one span per query
character, the span of the k-th matched word sitting at its word offset. -/
lemma buildMatches_closed (qlen mi : Nat) (ws : List Str)
    (h : mi + qlen ≤ ws.length) :
    buildMatches qlen mi ws =
      (List.range qlen).map
        (fun k => (wordOff ws (mi + k), wordOff ws (mi + k) + 1)) := by
  rw [buildMatches_eq, filter_range_of_le ws.length mi qlen h, List.map_map]
  rfl

/-! ### Case analysis of `searchText` and `searchWithFallback` -/

/-- A `null`/`undefined` candidate text fails the `!text` guard. -/
lemma searchText_none (q : Str) (b : Bool) : searchText q none b = ⟨none, 0⟩ :=
  rfl

/-- An empty candidate text fails the `!text` guard. -/
lemma searchText_empty (q : Str) (b : Bool) :
    searchText q (some []) b = ⟨none, 0⟩ := by
  simp [searchText]

/-- An empty query fails the `!this.query` guard. -/
lemma searchText_empty_query (t : Option Str) (b : Bool) :
    searchText [] t b = ⟨none, 0⟩ := by
  cases t with
  | none => rfl
  | some t => simp [searchText]

/-- `searchText` when the locator fails. -/
lemma searchText_of_fm_none (q t : Str) (b : Bool) (hq : q ≠ []) (ht : t ≠ [])
    (hfm : firstMatchPos q (createSearchableString (extractWords t)) = none) :
    searchText q (some t) b = ⟨none, 0⟩ := by
  simp only [searchText, if_neg (not_or.mpr ⟨hq, ht⟩)]
  rw [hfm]

/-- `searchText` when the locator succeeds: the match carries the score and
the spans of the span-building loop, and the top-level score repeats the
match score. -/
lemma searchText_of_fm_some (q t : Str) (b : Bool) (mi : Nat) (hq : q ≠ [])
    (ht : t ≠ [])
    (hfm : firstMatchPos q (createSearchableString (extractWords t)) = some mi) :
    searchText q (some t) b =
      ⟨some ⟨calculateScore q (createSearchableString (extractWords t)) t mi b,
             buildMatches q.length mi (extractWords t)⟩,
       calculateScore q (createSearchableString (extractWords t)) t mi b⟩ := by
  simp only [searchText, if_neg (not_or.mpr ⟨hq, ht⟩)]
  rw [hfm]

/-- Inversion: a returned match pins down the guards, the locator result,
and the exact shape of the result. -/
lemma searchText_match_inv (q t : Str) (b : Bool) (m : SearchResult)
    (h : (searchText q (some t) b).match_ = some m) :
    q ≠ [] ∧ t ≠ [] ∧
      ∃ mi, firstMatchPos q (createSearchableString (extractWords t)) = some mi ∧
        m = ⟨calculateScore q (createSearchableString (extractWords t)) t mi b,
             buildMatches q.length mi (extractWords t)⟩ := by
  by_cases hq : q = []
  · rw [hq, searchText_empty_query] at h
    exact absurd h (by simp)
  by_cases ht : t = []
  · rw [ht, searchText_empty] at h
    exact absurd h (by simp)
  rcases hfm : firstMatchPos q (createSearchableString (extractWords t)) with _ | mi
  · rw [searchText_of_fm_none q t b hq ht hfm] at h
    exact absurd h (by simp)
  · rw [searchText_of_fm_some q t b mi hq ht hfm] at h
    simp only [Option.some.injEq] at h
    exact ⟨hq, ht, mi, rfl, h.symm⟩

/-- Score consistency of a single `searchText` call. -/
lemma searchText_consistent (q : Str) (txt : Option Str) (b : Bool) :
    ((searchText q txt b).match_ = none → (searchText q txt b).score = 0) ∧
    (∀ m, (searchText q txt b).match_ = some m →
      m.score = (searchText q txt b).score) := by
  cases txt with
  | none => simp [searchText_none]
  | some t =>
    by_cases hq : q = []
    · rw [hq, searchText_empty_query]
      simp
    by_cases ht : t = []
    · rw [ht, searchText_empty]
      simp
    rcases hfm : firstMatchPos q (createSearchableString (extractWords t)) with _ | mi
    · rw [searchText_of_fm_none q t b hq ht hfm]
      simp
    · rw [searchText_of_fm_some q t b mi hq ht hfm]
      constructor
      · intro hc
        exact absurd hc (by simp)
      · intro m hm
        simp only [Option.some.injEq] at hm
        rw [← hm]

/-- Fallback with no path segments returns the primary attempt. -/
lemma searchWithFallback_no_segments (q : Str) (p : Option Str) :
    searchWithFallback q p none = searchText q p true := by
  simp only [searchWithFallback]
  cases h : (searchText q p true).match_ <;> rfl

/-- A successful primary attempt is returned unchanged. -/
lemma searchWithFallback_primary (q : Str) (p : Option Str)
    (ps : Option PathSegments) (h : (searchText q p true).match_ ≠ none) :
    searchWithFallback q p ps = searchText q p true := by
  simp only [searchWithFallback]
  cases hm : (searchText q p true).match_ with
  | none => exact absurd hm h
  | some m => cases ps <;> rfl

/-- When the primary attempt fails, a successful basename attempt is
returned. -/
lemma searchWithFallback_basename (q : Str) (p : Option Str) (s : PathSegments)
    (h1 : (searchText q p true).match_ = none)
    (h2 : (searchText q s.basename true).match_ ≠ none) :
    searchWithFallback q p (some s) = searchText q s.basename true := by
  simp only [searchWithFallback, h1]
  cases hm : (searchText q s.basename true).match_ with
  | none => exact absurd hm h2
  | some m => rfl

/-- When primary and basename attempts fail, the path attempt is returned. -/
lemma searchWithFallback_path (q : Str) (p : Option Str) (s : PathSegments)
    (h1 : (searchText q p true).match_ = none)
    (h2 : (searchText q s.basename true).match_ = none) :
    searchWithFallback q p (some s) = searchText q s.path false := by
  simp only [searchWithFallback, h1]
  rw [h2]

/-- Every fallback result is the result of one of the `searchText`
attempts. -/
lemma searchWithFallback_cases (q : Str) (p : Option Str)
    (ps : Option PathSegments) :
    ∃ txt b, searchWithFallback q p ps = searchText q txt b := by
  cases ps with
  | none => exact ⟨p, true, searchWithFallback_no_segments q p⟩
  | some s =>
    cases h1 : (searchText q p true).match_ with
    | some m =>
      exact ⟨p, true, searchWithFallback_primary q p (some s) (by simp [h1])⟩
    | none =>
      cases h2 : (searchText q s.basename true).match_ with
      | some m =>
        exact ⟨s.basename, true,
          searchWithFallback_basename q p s h1 (by simp [h2])⟩
      | none =>
        exact ⟨s.path, false, searchWithFallback_path q p s h1 h2⟩

/-- Convenience form of `searchText_of_fm_some` for the `match_` field
alone: used to discharge concrete match hypotheses without evaluating any
rational arithmetic. -/
lemma searchText_match_eq_of (q t : Str) (b : Bool) (mi : Nat) (hq : q ≠ [])
    (ht : t ≠ [])
    (hfm : firstMatchPos q (createSearchableString (extractWords t)) = some mi) :
    (searchText q (some t) b).match_ =
      some ⟨calculateScore q (createSearchableString (extractWords t)) t mi b,
            buildMatches q.length mi (extractWords t)⟩ := by
  rw [searchText_of_fm_some q t b mi hq ht hfm]

/-! ### The claims -/

/-- C1: for every non-empty query and non-empty text, `searchText` produces
a match exactly when the query occurs as a contiguous substring of the
initials index of the segmented words (no fuzziness, no gaps, no
reordering), and the match index used is the word index of the first
character of the leftmost occurrence, with `none` (JavaScript `-1`)
exactly when the query is absent. -/
theorem claim1_searchText_contiguous_leftmost (q t : Str) (b : Bool)
    (hq : q ≠ []) (ht : t ≠ []) :
    ((searchText q (some t) b).match_ ≠ none ↔
        q <:+: createSearchableString (extractWords t)) ∧
    (∀ mi, firstMatchPos q (createSearchableString (extractWords t)) = some mi →
        q <+: (createSearchableString (extractWords t)).drop mi ∧
        ∀ j, j < mi → ¬ q <+: (createSearchableString (extractWords t)).drop j) ∧
    (firstMatchPos q (createSearchableString (extractWords t)) = none ↔
        ¬ q <:+: createSearchableString (extractWords t)) := by
  refine ⟨?_, ?_, ?_⟩
  · rcases hfm : firstMatchPos q (createSearchableString (extractWords t))
      with _ | mi
    · rw [searchText_of_fm_none q t b hq ht hfm]
      constructor
      · intro hc
        exact absurd rfl hc
      · intro hinf
        exfalso
        have hs := (firstMatchPos_isSome_iff q
          (createSearchableString (extractWords t))).mpr hinf
        rw [hfm] at hs
        exact absurd hs (by simp)
    · rw [searchText_of_fm_some q t b mi hq ht hfm]
      constructor
      · intro _
        have hs : (firstMatchPos q
            (createSearchableString (extractWords t))).isSome = true := by
          rw [hfm]
          rfl
        exact (firstMatchPos_isSome_iff q
          (createSearchableString (extractWords t))).mp hs
      · intro _
        simp
  · intro mi hfm
    exact (firstMatchPos_some_iff q
      (createSearchableString (extractWords t)) mi).mp hfm
  · constructor
    · intro hfm hinf
      have hs := (firstMatchPos_isSome_iff q
        (createSearchableString (extractWords t))).mpr hinf
      rw [hfm] at hs
      exact absurd hs (by simp)
    · intro hninf
      rcases hfm : firstMatchPos q (createSearchableString (extractWords t))
        with _ | mi
      · rfl
      · exfalso
        apply hninf
        have hs : (firstMatchPos q
            (createSearchableString (extractWords t))).isSome = true := by
          rw [hfm]
          rfl
        exact (firstMatchPos_isSome_iff q
          (createSearchableString (extractWords t))).mp hs

/-- Witness for C1 at the tests' query `"gts"` against
`"get_the_score.txt"`: the query occurs contiguously in the initials. -/
theorem claim1_witness :
    (['g','t','s'] : Str) <:+: createSearchableString (extractWords tGts) :=
  (claim1_searchText_contiguous_leftmost ['g','t','s'] tGts true
    (by decide) (by decide)).1.mp (by
      rw [searchText_match_eq_of ['g','t','s'] tGts true 0
        (by decide) (by decide) (by decide)]
      simp)

/-- C2: segmentation follows the spec's algorithm step by step (extension
at the last dot only with more than one dot-part, delimiter-run split with
empty fragments discarded, zero-width camel/digit splits, extension
appended unsplit), no zero-length word appears, and `"archive.tar.gz"`
yields the words `archive`, `tar`, `gz`. -/
theorem claim2_segmentation_spec (t : Str) :
    extractWords t = specSegment t ∧
    (∀ w ∈ extractWords t, w ≠ []) ∧
    extractWords tArchiveTarGz =
      [['a','r','c','h','i','v','e'], ['t','a','r'], ['g','z']] :=
  ⟨extractWords_eq_specSegment t, extractWords_mem_ne_nil t, by decide⟩

/-- Witness for C2 at `"archive.tar.gz"`. -/
theorem claim2_witness :
    extractWords tArchiveTarGz = specSegment tArchiveTarGz ∧
    (['g','z'] : Str) ≠ [] :=
  ⟨(claim2_segmentation_spec tArchiveTarGz).1,
   (claim2_segmentation_spec tArchiveTarGz).2.1 ['g','z'] (by decide)⟩

/-- C3: the score of every matched search equals the spec's fixed-order
additive model `specScore`, and the top-level score repeats it. -/
theorem claim3_score_model (q t : Str) (b : Bool) (m : SearchResult)
    (h : (searchText q (some t) b).match_ = some m) :
    ∃ mi, firstMatchPos q (createSearchableString (extractWords t)) = some mi ∧
      m.score = specScore q.length
        (createSearchableString (extractWords t)).length t.length mi b
        (jsEndsWithMd t) ∧
      (searchText q (some t) b).score = m.score := by
  obtain ⟨hq, ht, mi, hfm, hm⟩ := searchText_match_inv q t b m h
  refine ⟨mi, hfm, ?_, ?_⟩
  · rw [hm]
    exact calculateScore_eq_specScore q
      (createSearchableString (extractWords t)) t mi b
  · rw [searchText_of_fm_some q t b mi hq ht hfm, hm]

/-- Witness for C3 at the tests' query `"mfc"` against
`"my-first-class.py"`, whose score is 373/50 = 7.46. -/
theorem claim3_witness :
    ∃ mi, firstMatchPos ['m','f','c']
        (createSearchableString (extractWords tMfcText)) = some mi ∧
      (SearchResult.mk
          (calculateScore ['m','f','c']
            (createSearchableString (extractWords tMfcText)) tMfcText 0 false)
          (buildMatches (['m','f','c'] : Str).length 0
            (extractWords tMfcText))).score =
        specScore (['m','f','c'] : Str).length
          (createSearchableString (extractWords tMfcText)).length
          tMfcText.length mi false (jsEndsWithMd tMfcText) ∧
      (searchText ['m','f','c'] (some tMfcText) false).score =
        (SearchResult.mk
          (calculateScore ['m','f','c']
            (createSearchableString (extractWords tMfcText)) tMfcText 0 false)
          (buildMatches (['m','f','c'] : Str).length 0
            (extractWords tMfcText))).score :=
  claim3_score_model ['m','f','c'] tMfcText false
    ⟨calculateScore ['m','f','c']
        (createSearchableString (extractWords tMfcText)) tMfcText 0 false,
      buildMatches (['m','f','c'] : Str).length 0 (extractWords tMfcText)⟩
    (searchText_match_eq_of ['m','f','c'] tMfcText false 0
      (by decide) (by decide) (by decide))

/-- C4: an empty or all-whitespace constructor query normalises to the
empty query, `hasSearchTerm` is false, and every `searchText` and
`searchWithFallback` call returns no match with score exactly 0. -/
theorem claim4_inert_empty_query (raw : Str)
    (h : ∀ c ∈ raw, isJsWhitespace c = true) :
    normalizeQuery (some raw) = [] ∧
    hasSearchTerm (normalizeQuery (some raw)) = false ∧
    (∀ txt b, searchText (normalizeQuery (some raw)) txt b = ⟨none, 0⟩) ∧
    (∀ p ps, searchWithFallback (normalizeQuery (some raw)) p ps = ⟨none, 0⟩) := by
  have hn := normalizeQuery_eq_nil raw h
  refine ⟨hn, ?_, ?_, ?_⟩
  · rw [hn]
    rfl
  · intro txt b
    rw [hn]
    exact searchText_empty_query txt b
  · intro p ps
    rw [hn]
    obtain ⟨txt, b, heq⟩ := searchWithFallback_cases [] p ps
    rw [heq, searchText_empty_query]

/-- Witness for C4 at the whitespace query `" "`. -/
theorem claim4_witness :
    hasSearchTerm (normalizeQuery (some [' '])) = false ∧
    searchText (normalizeQuery (some [' '])) (some ['a']) true = ⟨none, 0⟩ :=
  ⟨(claim4_inert_empty_query [' '] (by decide)).2.1,
   (claim4_inert_empty_query [' '] (by decide)).2.2.1 (some ['a']) true⟩

/-- C5: `searchWithFallback` tries the primary text as basename/primary,
then (only with path segments supplied) the basename, then the path as
non-basename, stopping at the first success; a `null` or empty candidate is
no match for that attempt, and if every attempt fails the result is no
match with score 0. -/
theorem claim5_fallback_order (q : Str) (p : Option Str)
    (ps : Option PathSegments) :
    (∀ b, searchText q none b = ⟨none, 0⟩) ∧
    (∀ b, searchText q (some []) b = ⟨none, 0⟩) ∧
    ((searchText q p true).match_ ≠ none →
        searchWithFallback q p ps = searchText q p true) ∧
    (∀ s, ps = some s → (searchText q p true).match_ = none →
        ((searchText q s.basename true).match_ ≠ none →
            searchWithFallback q p ps = searchText q s.basename true) ∧
        ((searchText q s.basename true).match_ = none →
            searchWithFallback q p ps = searchText q s.path false)) ∧
    (ps = none → (searchText q p true).match_ = none →
        searchWithFallback q p ps = searchText q p true) ∧
    ((searchWithFallback q p ps).match_ = none →
        (searchWithFallback q p ps).score = 0) := by
  refine ⟨searchText_none q, searchText_empty q,
    searchWithFallback_primary q p ps, ?_, ?_, ?_⟩
  · intro s hs h1
    subst hs
    exact ⟨searchWithFallback_basename q p s h1,
      searchWithFallback_path q p s h1⟩
  · intro hs h1
    subst hs
    exact searchWithFallback_no_segments q p
  · intro hnone
    obtain ⟨txt, b, heq⟩ := searchWithFallback_cases q p ps
    rw [heq] at hnone ⊢
    exact (searchText_consistent q txt b).1 hnone

/-- Witness for C5: an empty primary text falls back to the basename
attempt, which succeeds. -/
theorem claim5_witness :
    searchWithFallback ['a','b'] (some []) (some psXY) =
      searchText ['a','b'] psXY.basename true :=
  ((claim5_fallback_order ['a','b'] (some []) (some psXY)).2.2.2.1 psXY rfl
    (by rw [searchText_empty])).1 (by
      show (searchText ['a','b'] (some tAxBy) true).match_ ≠ none
      rw [searchText_match_eq_of ['a','b'] tAxBy true 0
        (by decide) (by decide) (by decide)]
      simp)

/-- C6: every match carries exactly one span per word index in
`[matchIndex, matchIndex + queryLength)`, each span `(c, c + 1)` at the
running offset `c` that sums preceding word lengths plus one delimiter
character per preceding word; hence the span list is non-empty. -/
theorem claim6_spans_per_matched_word (q t : Str) (b : Bool) (m : SearchResult)
    (h : (searchText q (some t) b).match_ = some m) :
    ∃ mi, firstMatchPos q (createSearchableString (extractWords t)) = some mi ∧
      m.spans = (List.range q.length).map
        (fun k => (wordOff (extractWords t) (mi + k),
                   wordOff (extractWords t) (mi + k) + 1)) ∧
      m.spans ≠ [] := by
  obtain ⟨hq, ht, mi, hfm, hm⟩ := searchText_match_inv q t b m h
  have hlen : mi + q.length ≤ (extractWords t).length := by
    have h1 := firstMatchPos_add_length_le q
      (createSearchableString (extractWords t)) mi hq hfm
    have h2 := createSearchableString_length (extractWords t)
      (extractWords_mem_ne_nil t)
    omega
  have hbm := buildMatches_closed q.length mi (extractWords t) hlen
  refine ⟨mi, hfm, ?_, ?_⟩
  · rw [hm]
    exact hbm
  · rw [hm]
    show buildMatches q.length mi (extractWords t) ≠ []
    rw [hbm]
    simp only [ne_eq, List.map_eq_nil_iff, List.range_eq_nil]
    intro hc
    exact hq (List.length_eq_zero.mp hc)

/-- Witness for C6 at query `"ab"` against `"ax-by"`: spans `(0,1)` and
`(3,4)`. -/
theorem claim6_witness :
    ∃ mi, firstMatchPos ['a','b']
        (createSearchableString (extractWords tAxBy)) = some mi ∧
      (SearchResult.mk
          (calculateScore ['a','b']
            (createSearchableString (extractWords tAxBy)) tAxBy 0 true)
          (buildMatches (['a','b'] : Str).length 0 (extractWords tAxBy))).spans =
        (List.range (['a','b'] : Str).length).map
          (fun k => (wordOff (extractWords tAxBy) (mi + k),
                     wordOff (extractWords tAxBy) (mi + k) + 1)) ∧
      (SearchResult.mk
          (calculateScore ['a','b']
            (createSearchableString (extractWords tAxBy)) tAxBy 0 true)
          (buildMatches (['a','b'] : Str).length 0 (extractWords tAxBy))).spans ≠ [] :=
  claim6_spans_per_matched_word ['a','b'] tAxBy true
    ⟨calculateScore ['a','b']
        (createSearchableString (extractWords tAxBy)) tAxBy 0 true,
      buildMatches (['a','b'] : Str).length 0 (extractWords tAxBy)⟩
    (searchText_match_eq_of ['a','b'] tAxBy true 0
      (by decide) (by decide) (by decide))

/-- C7 counterexample: with a 300-character filename the length penalty
pushes both the matchIndex-0 score and the matchIndex-1 score onto the 0.1
floor, so the prefix match does not score strictly higher. -/
theorem claim7_counterexample :
    calculateScore ['a'] ['a','a'] longName 0 false =
      calculateScore ['a'] ['a','a'] longName 1 false ∧
    ¬ (calculateScore ['a'] ['a','a'] longName 1 false <
        calculateScore ['a'] ['a','a'] longName 0 false) := by
  have hmd : jsEndsWithMd longName = false := by decide
  have hlen : longName.length = 300 := by
    rw [longName, List.length_replicate]
  have h0 : calculateScore ['a'] ['a','a'] longName 0 false = 1 / 10 := by
    rw [calculateScore_closed]
    apply max_eq_left
    simp only [scoreCore, hmd, hlen, List.length_cons, List.length_nil]
    norm_num [max_def]
  have h1 : calculateScore ['a'] ['a','a'] longName 1 false = 1 / 10 := by
    rw [calculateScore_closed]
    apply max_eq_left
    simp only [scoreCore, hmd, hlen, List.length_cons, List.length_nil]
    norm_num [max_def]
  rw [h0, h1]
  exact ⟨rfl, lt_irrefl (1 / 10 : ℚ)⟩

/-- C7 amended: with query, initials index, candidate text and basename
flag fixed, a match at matchIndex 0 scores at least as high as one at any
matchIndex k > 0; strictly higher whenever the matchIndex-0 score exceeds
the 0.1 floor, and when the matchIndex-0 score sits at the floor both
scores are exactly 0.1. -/
theorem claim7_position_dominance_amended (q ss f : Str) (b : Bool) (k : Nat)
    (hk : 0 < k) :
    calculateScore q ss f k b ≤ calculateScore q ss f 0 b ∧
    (1 / 10 < calculateScore q ss f 0 b →
      calculateScore q ss f k b < calculateScore q ss f 0 b) ∧
    (calculateScore q ss f 0 b = 1 / 10 →
      calculateScore q ss f k b = 1 / 10) := by
  have hk0 : (0 : ℚ) ≤ (k : ℚ) * (1 / 10) := by positivity
  rw [calculateScore_closed q ss f k b, calculateScore_closed q ss f 0 b]
  have hif0 : (if (0 : Nat) = 0 then (3 : ℚ) else 0) = 3 := if_pos rfl
  have hifk : (if k = 0 then (3 : ℚ) else 0) = 0 := if_neg (by omega)
  rw [hif0, hifk]
  simp only [Nat.cast_zero, zero_mul, sub_zero, add_zero]
  refine ⟨?_, ?_, ?_⟩
  · exact max_le_max le_rfl (by linarith)
  · intro hlt
    have h3 : 1 / 10 < scoreCore q ss f + 3 + (if b = true then (2 : ℚ) else 0) := by
      rcases lt_max_iff.mp hlt with hc | hc
      · exact absurd hc (lt_irrefl _)
      · exact hc
    rw [max_eq_right (le_of_lt h3)]
    exact max_lt h3 (by linarith)
  · intro heq
    have hle : scoreCore q ss f + 3 + (if b = true then (2 : ℚ) else 0) ≤ 1 / 10 :=
      max_eq_left_iff.mp heq
    exact max_eq_left (by linarith)

/-- Witness for amended C7: on a short candidate the dominance is strict. -/
theorem claim7_witness :
    calculateScore ['a','b'] ['a','b'] ['f'] 1 true ≤
      calculateScore ['a','b'] ['a','b'] ['f'] 0 true ∧
    calculateScore ['a','b'] ['a','b'] ['f'] 1 true <
      calculateScore ['a','b'] ['a','b'] ['f'] 0 true := by
  have hgt : 1 / 10 < calculateScore ['a','b'] ['a','b'] ['f'] 0 true := by
    rw [calculateScore_closed]
    apply lt_max_iff.mpr
    right
    have hmd : jsEndsWithMd ['f'] = false := by decide
    simp only [scoreCore, hmd, List.length_cons, List.length_nil]
    norm_num [max_def]
  exact ⟨(claim7_position_dominance_amended ['a','b'] ['a','b'] ['f'] true 1
      (by omega)).1,
    (claim7_position_dominance_amended ['a','b'] ['a','b'] ['f'] true 1
      (by omega)).2.1 hgt⟩

/-- C8 counterexample: with a 300-character filename both the basename
score and the non-basename score sit on the 0.1 floor, so the basename
flag does not make the score strictly greater. -/
theorem claim8_counterexample :
    calculateScore ['a'] ['a','a'] longName 5 true =
      calculateScore ['a'] ['a','a'] longName 5 false ∧
    ¬ (calculateScore ['a'] ['a','a'] longName 5 false <
        calculateScore ['a'] ['a','a'] longName 5 true) := by
  have hmd : jsEndsWithMd longName = false := by decide
  have hlen : longName.length = 300 := by
    rw [longName, List.length_replicate]
  have h0 : calculateScore ['a'] ['a','a'] longName 5 true = 1 / 10 := by
    rw [calculateScore_closed]
    apply max_eq_left
    simp only [scoreCore, hmd, hlen, List.length_cons, List.length_nil]
    norm_num [max_def]
  have h1 : calculateScore ['a'] ['a','a'] longName 5 false = 1 / 10 := by
    rw [calculateScore_closed]
    apply max_eq_left
    simp only [scoreCore, hmd, hlen, List.length_cons, List.length_nil]
    norm_num [max_def]
  rw [h0, h1]
  exact ⟨rfl, lt_irrefl (1 / 10 : ℚ)⟩

/-- C8 amended: for identical index, match index and text, the basename
score is at least the non-basename score; strictly greater whenever the
basename score exceeds the 0.1 floor, and when the basename score sits at
the floor both scores are exactly 0.1. -/
theorem claim8_basename_dominance_amended (q ss f : Str) (mi : Nat) :
    calculateScore q ss f mi false ≤ calculateScore q ss f mi true ∧
    (1 / 10 < calculateScore q ss f mi true →
      calculateScore q ss f mi false < calculateScore q ss f mi true) ∧
    (calculateScore q ss f mi true = 1 / 10 →
      calculateScore q ss f mi false = 1 / 10) := by
  rw [calculateScore_closed q ss f mi false, calculateScore_closed q ss f mi true]
  have hift : (if (true : Bool) = true then (2 : ℚ) else 0) = 2 := if_pos rfl
  have hiff : (if (false : Bool) = true then (2 : ℚ) else 0) = 0 := by simp
  rw [hift, hiff, add_zero]
  refine ⟨?_, ?_, ?_⟩
  · exact max_le_max le_rfl (by linarith)
  · intro hlt
    have h3 : 1 / 10 < scoreCore q ss f + (if mi = 0 then (3 : ℚ) else 0) + 2
        - (mi : ℚ) * (1 / 10) := by
      rcases lt_max_iff.mp hlt with hc | hc
      · exact absurd hc (lt_irrefl _)
      · exact hc
    rw [max_eq_right (le_of_lt h3)]
    exact max_lt h3 (by linarith)
  · intro heq
    have hle : scoreCore q ss f + (if mi = 0 then (3 : ℚ) else 0) + 2
        - (mi : ℚ) * (1 / 10) ≤ 1 / 10 := max_eq_left_iff.mp heq
    exact max_eq_left (by linarith)

/-- Witness for amended C8: on a short candidate the dominance is strict. -/
theorem claim8_witness :
    calculateScore ['a','b'] ['a','b'] ['f'] 0 false ≤
      calculateScore ['a','b'] ['a','b'] ['f'] 0 true ∧
    calculateScore ['a','b'] ['a','b'] ['f'] 0 false <
      calculateScore ['a','b'] ['a','b'] ['f'] 0 true := by
  have hgt : 1 / 10 < calculateScore ['a','b'] ['a','b'] ['f'] 0 true := by
    rw [calculateScore_closed]
    apply lt_max_iff.mpr
    right
    have hmd : jsEndsWithMd ['f'] = false := by decide
    simp only [scoreCore, hmd, List.length_cons, List.length_nil]
    norm_num [max_def]
  exact ⟨(claim8_basename_dominance_amended ['a','b'] ['a','b'] ['f'] 0).1,
    (claim8_basename_dominance_amended ['a','b'] ['a','b'] ['f'] 0).2.1 hgt⟩

/-- C9: for every word sequence produced by segmentation, the initials
index is the order-preserving concatenation of the lower-cased first
character of each word, and its length equals the number of words. -/
theorem claim9_initials_index (t : Str) :
    createSearchableString (extractWords t) =
      (extractWords t).map (fun w => jsToLower w.headI) ∧
    (createSearchableString (extractWords t)).length = (extractWords t).length ∧
    ∀ w ∈ extractWords t, w ≠ [] :=
  ⟨createSearchableString_eq_map (extractWords t) (extractWords_mem_ne_nil t),
   createSearchableString_length (extractWords t) (extractWords_mem_ne_nil t),
   extractWords_mem_ne_nil t⟩

/-- Witness for C9 at `"get_the_score.txt"`. -/
theorem claim9_witness :
    createSearchableString (extractWords tGts) =
      (extractWords tGts).map (fun w => jsToLower w.headI) ∧
    (['t','x','t'] : Str) ≠ [] :=
  ⟨(claim9_initials_index tGts).1,
   (claim9_initials_index tGts).2.2 ['t','x','t'] (by decide)⟩

/-- C10: every result of `searchText` and `searchWithFallback` keeps its
two score fields consistent: a non-null match stores the same score as the
top-level field, and a null match comes with top-level score exactly 0. -/
theorem claim10_score_consistency (q : Str) (txt : Option Str) (b : Bool)
    (p : Option Str) (ps : Option PathSegments) :
    ((searchText q txt b).match_ = none → (searchText q txt b).score = 0) ∧
    (∀ m, (searchText q txt b).match_ = some m →
        m.score = (searchText q txt b).score) ∧
    ((searchWithFallback q p ps).match_ = none →
        (searchWithFallback q p ps).score = 0) ∧
    (∀ m, (searchWithFallback q p ps).match_ = some m →
        m.score = (searchWithFallback q p ps).score) := by
  obtain ⟨txt2, b2, heq⟩ := searchWithFallback_cases q p ps
  refine ⟨(searchText_consistent q txt b).1, (searchText_consistent q txt b).2,
    ?_, ?_⟩
  · rw [heq]
    exact (searchText_consistent q txt2 b2).1
  · rw [heq]
    exact (searchText_consistent q txt2 b2).2

/-- Witness for C10 at query `"a"` against `"a"`. -/
theorem claim10_witness :
    (searchText ['a'] (some ['a']) true).match_ =
      some ⟨calculateScore ['a'] (createSearchableString (extractWords ['a']))
              ['a'] 0 true,
            buildMatches (['a'] : Str).length 0 (extractWords ['a'])⟩ ∧
    (SearchResult.mk
        (calculateScore ['a'] (createSearchableString (extractWords ['a']))
          ['a'] 0 true)
        (buildMatches (['a'] : Str).length 0 (extractWords ['a']))).score =
      (searchText ['a'] (some ['a']) true).score :=
  ⟨searchText_match_eq_of ['a'] ['a'] true 0 (by decide) (by decide) (by decide),
   (claim10_score_consistency ['a'] (some ['a']) true none none).2.1
     ⟨calculateScore ['a'] (createSearchableString (extractWords ['a']))
         ['a'] 0 true,
       buildMatches (['a'] : Str).length 0 (extractWords ['a'])⟩
     (searchText_match_eq_of ['a'] ['a'] true 0 (by decide) (by decide)
       (by decide))⟩
